import Mathlib

/-!
Verification of the Markdown-to-docx converter in `src/app.py`.

The embedding works on `List Char`.  A line of input is a `List Char` with no
newline; the whole input is a `List (List Char)` (the result of Python's
`md.splitlines()`, which the HTTP layer performs before the core loop).
Machine text is pure data here, so the regex patterns of the source are
translated into explicit search functions with the exact semantics the Python
`re` engine gives them on newline-free text:

* `_bold = \*\*(.+?)\*\*` : earliest start `s` with `**` at `s` and a closing
  `**` at the least `e ≥ s+3` (lazy `.+?`); the capture is `text[s+2..e)`.
* `_italic = \*(.+?)\*`, `_inline_code` with a backtick: earliest start `s`
  with the delimiter at `s` and the least closing delimiter at `e ≥ s+2`.
* `_link = \[([^\]]+)\]\(([^)]+)\)` : at a start `s` holding `[`, the first
  `]` after `s` must lie at `j ≥ s+2`, be followed by `(`, and the first `)`
  after `j+1` must lie at `k ≥ j+3` (the negated classes cannot backtrack).

Fuel arguments make every recursion structural; each top-level wrapper picks
fuel that is provably never exhausted (positions advance by at least one per
step), so the fuel is an implementation detail, not a semantic bound.
-/

namespace BriefDocx

/-- Characters of a string literal, the text form used throughout. -/
def toL (s : String) : List Char := s.toList

/-- The backtick character (code point 96). -/
def btick : Char := Char.ofNat 96

/-- Python slice `t[a:b]` on character lists. -/
def sub (t : List Char) (a b : Nat) : List Char := (t.drop a).take (b - a)

/-- First index `i' ≥ i` (scanning `fuel` candidates) with `p i'`. -/
def findFrom (p : Nat → Bool) : Nat → Nat → Option Nat
  | _, 0 => none
  | i, fuel + 1 => if p i then some i else findFrom p (i + 1) fuel

/-- A regex match: start, end (exclusive) and the captured groups. -/
structure IMatch where
  ms : Nat
  me : Nat
  g1 : List Char
  g2 : List Char
deriving DecidableEq

/-- The four inline patterns of `_inline_formats`, in source check order. -/
inductive Kind where
  | bold
  | italic
  | code
  | link
deriving DecidableEq

/-- Position of a pattern in the fixed check order of `_inline_formats`. -/
def kindIdx : Kind → Nat
  | .bold => 0
  | .italic => 1
  | .code => 2
  | .link => 3

/-- `re.search` driver: try `f` at `s`, `s+1`, ... (`fuel` candidate starts). -/
def searchAux (f : Nat → Option IMatch) : Nat → Nat → Option IMatch
  | _, 0 => none
  | s, fuel + 1 =>
    match f s with
    | some m => some m
    | none => searchAux f (s + 1) fuel

/-- `pattern.search(text, pos)`: first match whose start is at least `pos`. -/
def regexSearch (f : Nat → Option IMatch) (pos len : Nat) : Option IMatch :=
  searchAux f pos (len - pos)

/-- Match of `_bold` anchored at `s`: `**`, a lazy nonempty body, `**`. -/
def boldAt (t : List Char) (s : Nat) : Option IMatch :=
  if t.get? s = some '*' ∧ t.get? (s + 1) = some '*' then
    match findFrom
        (fun e => decide (t.get? e = some '*' ∧ t.get? (e + 1) = some '*'))
        (s + 3) t.length with
    | some e => some ⟨s, e + 2, sub t (s + 2) e, []⟩
    | none => none
  else none

/-- Match of a one-character delimiter pattern (`_italic`, `_inline_code`)
anchored at `s`: delimiter `d`, a lazy nonempty body, `d`. -/
def singleDelimAt (d : Char) (t : List Char) (s : Nat) : Option IMatch :=
  if t.get? s = some d then
    match findFrom (fun e => decide (t.get? e = some d)) (s + 2) t.length with
    | some e => some ⟨s, e + 1, sub t (s + 1) e, []⟩
    | none => none
  else none

/-- Match of `_link` anchored at `s`. -/
def linkAt (t : List Char) (s : Nat) : Option IMatch :=
  if t.get? s = some '[' then
    match findFrom (fun j => decide (t.get? j = some ']')) (s + 1) t.length with
    | some j =>
      if s + 2 ≤ j ∧ t.get? (j + 1) = some '(' then
        match findFrom (fun k => decide (t.get? k = some ')')) (j + 2) t.length with
        | some k =>
          if j + 3 ≤ k then some ⟨s, k + 1, sub t (s + 1) j, sub t (j + 2) k⟩
          else none
        | none => none
      else none
    | none => none
  else none

/-- One candidate entry of the `matches` list built by `_inline_formats`. -/
def optCand (k : Kind) : Option IMatch → List (Kind × IMatch)
  | some m => [(k, m)]
  | none => []

/-- The `matches` list of `_inline_formats` at scan position `pos`: one entry
per pattern that still matches, in the source order bold, italic, code, link. -/
def candidates (t : List Char) (pos : Nat) : List (Kind × IMatch) :=
  optCand .bold (regexSearch (boldAt t) pos t.length) ++
    optCand .italic (regexSearch (singleDelimAt '*' t) pos t.length) ++
    optCand .code (regexSearch (singleDelimAt btick t) pos t.length) ++
    optCand .link (regexSearch (linkAt t) pos t.length)

/-- `matches.sort(key=start)` with Python's stable sort, then taking the head:
the first entry attaining the least match start. -/
def pickEarliest : List (Kind × IMatch) → Option (Kind × IMatch)
  | [] => none
  | x :: xs =>
    match pickEarliest xs with
    | none => some x
    | some y => if y.2.ms < x.2.ms then some y else some x

/-- One run emitted into a paragraph: plain text, a styled span, or a
hyperlink run carrying its display text and target URL. -/
inductive Run where
  | plain (s : List Char)
  | bold (s : List Char)
  | italic (s : List Char)
  | code (s : List Char)
  | link (display url : List Char)
deriving DecidableEq

/-- The run `_inline_formats` emits for the selected match. -/
def mkRun : Kind → IMatch → Run
  | .bold, m => .bold m.g1
  | .italic, m => .italic m.g1
  | .code, m => .code m.g1
  | .link, m => .link m.g1 m.g2

/-- The text a run contributes to the paragraph (a hyperlink contributes its
display text; the URL goes into a relationship, not into run text). -/
def runText : Run → List Char
  | .plain s => s
  | .bold s => s
  | .italic s => s
  | .code s => s
  | .link d _ => d

/-- Concatenation of the texts of a run sequence, in order. -/
def runsText (rs : List Run) : List Char := (rs.map runText).flatten

/-- The scan loop of `_inline_formats`.  Each iteration either emits the
remainder (no pattern matches) or emits the text before the earliest match,
the styled run of the match, and continues past the match. -/
def inlineGoF : Nat → List Char → Nat → List Run
  | 0, _, _ => []
  | fuel + 1, t, pos =>
    if pos < t.length then
      match pickEarliest (candidates t pos) with
      | none => [Run.plain (sub t pos t.length)]
      | some (k, m) =>
        (if pos < m.ms then [Run.plain (sub t pos m.ms)] else []) ++
          mkRun k m :: inlineGoF fuel t m.me
    else []

/-- `_inline_formats` on a text payload: the ordered run sequence. -/
def inlineRuns (t : List Char) : List Run := inlineGoF (t.length + 1) t 0

/-- Modelled from the spec's words for the round-trip property: the literal
content a matched span keeps once "its inline markup delimiters" are removed,
read off the match positions.  A bold span keeps the text strictly between
the two `**` pairs, an italic or code span the text strictly between the two
delimiter characters; a link keeps its captured display text (per the spec,
the URL goes into an external relationship, not into the run text, so the
bracket/URL tail counts as markup). -/
def specContent (t : List Char) : Kind → IMatch → List Char
  | .bold, m => sub t (m.ms + 2) (m.me - 2)
  | .italic, m => sub t (m.ms + 1) (m.me - 1)
  | .code, m => sub t (m.ms + 1) (m.me - 1)
  | .link, m => m.g1

/-- Modelled from the spec's words: the payload with the markup delimiters of
each selected span stripped and every other character kept, scanning the
spans exactly as the formatter selects them. -/
def stripGoF : Nat → List Char → Nat → List Char
  | 0, _, _ => []
  | fuel + 1, t, pos =>
    if pos < t.length then
      match pickEarliest (candidates t pos) with
      | none => sub t pos t.length
      | some (k, m) => sub t pos m.ms ++ specContent t k m ++ stripGoF fuel t m.me
    else []

/-- The payload with its inline markup delimiters stripped. -/
def stripMarkup (t : List Char) : List Char := stripGoF (t.length + 1) t 0

/-! ### The legacy `<strong>` rewrite of the paragraph branch -/

/-- Case-insensitive occurrence of the lowercase pattern `pat` at index `i`. -/
def ciAt (t : List Char) (pat : List Char) (i : Nat) : Bool :=
  (sub t i (i + pat.length)).map Char.toLower == pat

/-- Match of `_html_strong` (`<strong>(.+?)</strong>`, IGNORECASE) at `s`. -/
def htmlStrongAt (t : List Char) (s : Nat) : Option IMatch :=
  if ciAt t (toL "<strong>") s then
    match findFrom (fun e => ciAt t (toL "</strong>") e) (s + 9) t.length with
    | some e => some ⟨s, e + 9, sub t (s + 8) e, []⟩
    | none => none
  else none

/-- The scan of `re.sub`: replace every occurrence left to right. -/
def htmlSubF : Nat → List Char → Nat → List Char
  | 0, t, pos => sub t pos t.length
  | fuel + 1, t, pos =>
    match regexSearch (htmlStrongAt t) pos t.length with
    | none => sub t pos t.length
    | some m => sub t pos m.ms ++ toL "**" ++ m.g1 ++ toL "**" ++ htmlSubF fuel t m.me

/-- `_html_strong.sub(r"**\1**", line)`. -/
def htmlStrongSub (t : List Char) : List Char := htmlSubF (t.length + 1) t 0

/-! ### Line-level patterns of the block classifier -/

/-- Characters Python's `\s` matches on ASCII text (space, tab, newline,
carriage return, vertical tab, form feed). -/
def pySpace (c : Char) : Bool :=
  c == ' ' || c == '\t' || c == '\n' || c == '\r' ||
    c == Char.ofNat 11 || c == Char.ofNat 12

/-- Both-ends strip: drop characters satisfying `p` from front and back. -/
def stripChars (l : List Char) (p : Char → Bool) : List Char :=
  ((l.dropWhile p).reverse.dropWhile p).reverse

/-- Python `str.strip()` (whitespace strip, ASCII fragment). -/
def pyStrip (l : List Char) : List Char := stripChars l pySpace

/-- `_code_block = ^``` ` via `re.match`: the line begins with three
backticks. -/
def isFence (line : List Char) : Bool := decide (line.take 3 = toL "```")

/-- `_table_row = ^\|(.+)\|$`: first and last character are pipes with at
least one character between them. -/
def isTableRow (line : List Char) : Bool :=
  decide (3 ≤ line.length ∧ line.head? = some '|' ∧ line.getLast? = some '|')

/-- A character of the `_table_divider` class `[\|\s:-]`. -/
def dividerChar (c : Char) : Bool := c == '|' || c == ':' || c == '-' || pySpace c

/-- `_table_divider = ^[\|\s:-]+$` via `re.match` on a full line. -/
def isTableDivider (line : List Char) : Bool := !line.isEmpty && line.all dividerChar

/-- `_is_valid_table_structure(lines, i)` with `lines` starting at index `i`:
a row line, then a divider line, then at least one more row line. -/
def isValidTable : List (List Char) → Bool
  | l0 :: l1 :: l2 :: _ => isTableRow l0 && isTableDivider l1 && isTableRow l2
  | _ => false

/-- `_hdr1`/`_hdr2`/`_hdr3` (`^#{n} (.+)`): `n` hash marks, a space, and a
nonempty remainder, which is the capture. -/
def matchHdr (n : Nat) (line : List Char) : Option (List Char) :=
  if line.take (n + 1) = List.replicate n '#' ++ [' '] ∧ n + 1 < line.length then
    some (line.drop (n + 1))
  else none

/-- `_bullet = ^[-*] (.+)`: marker, space, nonempty remainder. -/
def matchBullet (line : List Char) : Option (List Char) :=
  if (line.head? = some '-' ∨ line.head? = some '*') ∧
      line.get? 1 = some ' ' ∧ 2 < line.length then
    some (line.drop 2)
  else none

/-- `_numbered = ^(\d+)\. (.+)`: a maximal nonempty digit run (the negated
continuation cannot backtrack into it), a period, a space, a nonempty
remainder; returns (ordinal, text) as the two capture groups. -/
def matchNumbered (line : List Char) : Option (List Char × List Char) :=
  let ds := line.takeWhile Char.isDigit
  if ds ≠ [] ∧ (line.drop ds.length).take 2 = ['.', ' '] ∧
      ds.length + 2 < line.length then
    some (ds, line.drop (ds.length + 2))
  else none

/-- `_nested_bullet = ^  [-*] (.+)`: exactly the bullet pattern behind two
leading spaces. -/
def matchNestedBullet (line : List Char) : Option (List Char) :=
  if line.take 2 = [' ', ' '] then matchBullet (line.drop 2) else none

/-- `_nested_numbered = ^  (\d+)\. (.+)`. -/
def matchNestedNumbered (line : List Char) : Option (List Char × List Char) :=
  if line.take 2 = [' ', ' '] then matchNumbered (line.drop 2) else none

/-- Outcome of the single-line pattern cascade of `md_to_docx` (headings,
nested lists, top-level lists, else plain paragraph), tried in source order. -/
inductive LineClass where
  | hdr (level : Nat) (text : List Char)
  | nestedB (text : List Char)
  | nestedN (text : List Char)
  | bulletI (text : List Char)
  | numberI (text : List Char)
  | par
deriving DecidableEq

/-- The `if m := _hdr1.match(line) ... elif ... else` chain of `md_to_docx`.
Nested numbered items keep `group(2)` (the text, not the ordinal), exactly as
the source does. -/
def classifyLine (line : List Char) : LineClass :=
  match matchHdr 1 line with
  | some t => .hdr 1 t
  | none =>
  match matchHdr 2 line with
  | some t => .hdr 2 t
  | none =>
  match matchHdr 3 line with
  | some t => .hdr 3 t
  | none =>
  match matchNestedBullet line with
  | some t => .nestedB t
  | none =>
  match matchNestedNumbered line with
  | some p => .nestedN p.2
  | none =>
  match matchBullet line with
  | some t => .bulletI t
  | none =>
  match matchNumbered line with
  | some p => .numberI p.2
  | none => .par

/-- `[c.strip() for c in line.strip("|").split("|")]`. -/
def cells (line : List Char) : List (List Char) :=
  ((stripChars line (fun c => c == '|')).splitOn '|').map pyStrip

/-- Pad a data row with empty cells, then truncate, to exactly `n` cells
(the `while len(row_data) < len(header)` loop plus the `[:len(header)]`
slice). -/
def padTrunc (row : List (List Char)) (n : Nat) : List (List Char) :=
  (row ++ List.replicate (n - row.length) []).take n

/-- Paragraph styles the driver assigns. -/
inductive PStyle where
  | normal
  | bullet
  | number
  | bullet2
  | number2
deriving DecidableEq

/-- One unit appended to the output document.  Cell borders and the bold
header styling are pure per-cell side effects in the backend and carry no
text, so the table node keeps header and data cell texts. -/
inductive DocBlock where
  | heading (level : Nat) (text : List Char)
  | para (style : PStyle) (runs : List Run)
  | table (header : List (List Char)) (rows : List (List (List Char)))
deriving DecidableEq

/-- The paragraph flushed for an accumulated code block: each original line
becomes its own run terminated by a line break (`p.add_run(code_line + "\n")`),
with no inline formatting. -/
def codeFlush (acc : List (List Char)) : DocBlock :=
  .para .normal (acc.map (fun l => Run.plain (l ++ ['\n'])))

/-- The main loop of `md_to_docx` over the remaining lines, with the
`in_code_block` flag and the `code_content` accumulator as explicit state.
The fuel decreases by one per consumed leading line; `mdToDocx` supplies
fuel equal to the number of lines, which the loop can never exhaust. -/
def convGoF : Nat → Bool → List (List Char) → List (List Char) → List DocBlock
  | _, inCode, acc, [] =>
    if inCode && !acc.isEmpty then [codeFlush acc] else []
  | 0, _, _, _ :: _ => []
  | fuel + 1, inCode, acc, line :: rest =>
    if isFence line then
      if inCode then
        (if !acc.isEmpty then [codeFlush acc] else []) ++ convGoF fuel false [] rest
      else
        convGoF fuel true acc rest
    else if inCode then
      convGoF fuel inCode (acc ++ [line]) rest
    else if isTableRow line && isValidTable (line :: rest) then
      let header := cells line
      let dataRows := (rest.drop 1).takeWhile isTableRow
      DocBlock.table header (dataRows.map (fun l => padTrunc (cells l) header.length)) ::
        convGoF fuel inCode acc (rest.drop (1 + dataRows.length))
    else
      (match classifyLine line with
        | .hdr n t => [DocBlock.heading n t]
        | .nestedB t => [DocBlock.para .bullet2 (inlineRuns t)]
        | .nestedN t => [DocBlock.para .number2 (inlineRuns t)]
        | .bulletI t => [DocBlock.para .bullet (inlineRuns t)]
        | .numberI t => [DocBlock.para .number (inlineRuns t)]
        | .par =>
          let plain := htmlStrongSub line
          if (pyStrip plain).isEmpty then [] else [DocBlock.para .normal (inlineRuns plain)]) ++
        convGoF fuel inCode acc rest

/-- `md_to_docx` on an already-split input: the sequence of blocks appended
to the fresh document. -/
def mdToDocx (lines : List (List Char)) : List DocBlock :=
  convGoF lines.length false [] lines

/-! ### `_safe_filename` -/

/-- A character the class `[^A-Za-z0-9_.-]` of `_invalid_fname` keeps. -/
def validChar (c : Char) : Bool :=
  (decide ('A' ≤ c) && decide (c ≤ 'Z')) || (decide ('a' ≤ c) && decide (c ≤ 'z')) ||
    (decide ('0' ≤ c) && decide (c ≤ '9')) || c == '_' || c == '.' || c == '-'

/-- `_invalid_fname.sub("_", name)`. -/
def sanitize (name : List Char) : List Char :=
  name.map (fun c => if validChar c then c else '_')

/-- `.strip("._")`. -/
def stripDotUnd (l : List Char) : List Char :=
  stripChars l (fun c => c == '.' || c == '_')

/-- `name.lower().endswith(".docx")`. -/
def lowerEndsDocx (l : List Char) : Bool :=
  decide (toL ".docx" <:+ l.map Char.toLower)

/-- `_safe_filename`.  The call to `uuid4()` is the one effect of the
function; it is abstracted as the `uuid` argument (the textual form of the
fresh UUID, hexadecimal digits and dashes). -/
def safeFilename (name? : Option (List Char)) (uuid : List Char) : List Char :=
  match name? with
  | none => uuid ++ toL ".docx"
  | some name =>
    if name = [] then uuid ++ toL ".docx"
    else
      let n2 := stripDotUnd (sanitize name)
      let n3 := if n2 = [] then uuid else n2
      if lowerEndsDocx n3 then n3 else n3 ++ toL ".docx"


/-! ### Basic facts about the search machinery -/

theorem findFrom_some {p : Nat → Bool} {i n j : Nat} (h : findFrom p i n = some j) :
    i ≤ j ∧ p j = true := by
  induction n generalizing i with
  | zero => simp [findFrom] at h
  | succ n ih =>
    rw [findFrom] at h
    split at h
    · cases h
      exact ⟨Nat.le_refl _, by assumption⟩
    · have := ih h
      exact ⟨Nat.le_of_succ_le this.1, this.2⟩

theorem searchAux_some {f : Nat → Option IMatch} {s n : Nat} {m : IMatch}
    (h : searchAux f s n = some m) : ∃ s', s ≤ s' ∧ f s' = some m := by
  induction n generalizing s with
  | zero => simp [searchAux] at h
  | succ n ih =>
    rw [searchAux] at h
    split at h
    · rename_i m' heq
      cases h
      exact ⟨s, Nat.le_refl _, heq⟩
    · obtain ⟨s', hs', hfs'⟩ := ih h
      exact ⟨s', Nat.le_of_succ_le hs', hfs'⟩

theorem pickEarliest_eq_none {l : List (Kind × IMatch)}
    (h : pickEarliest l = none) : l = [] := by
  cases l with
  | nil => rfl
  | cons a xs =>
    exfalso
    rw [pickEarliest] at h
    split at h
    · cases h
    · split at h <;> cases h

theorem pickEarliest_mem : ∀ {l : List (Kind × IMatch)} {x},
    pickEarliest l = some x → x ∈ l := by
  intro l
  induction l with
  | nil => intro x h; simp [pickEarliest] at h
  | cons a xs ih =>
    intro x h
    rw [pickEarliest] at h
    split at h
    · cases h
      exact List.mem_cons_self _ _
    · rename_i y heq
      split at h
      · cases h
        exact List.mem_cons_of_mem _ (ih heq)
      · cases h
        exact List.mem_cons_self _ _

theorem pickEarliest_min : ∀ {l : List (Kind × IMatch)} {x},
    pickEarliest l = some x → ∀ y ∈ l, x.2.ms ≤ y.2.ms := by
  intro l
  induction l with
  | nil => intro x h; simp [pickEarliest] at h
  | cons a xs ih =>
    intro x h y hy
    rw [pickEarliest] at h
    split at h
    · rename_i heq
      cases h
      have := pickEarliest_eq_none heq
      subst this
      rcases List.mem_cons.1 hy with rfl | hy
      · exact Nat.le_refl _
      · cases hy
    · rename_i z heq
      split at h
      · rename_i hc
        cases h
        rcases List.mem_cons.1 hy with rfl | hy
        · exact Nat.le_of_lt hc
        · exact ih heq y hy
      · rename_i hc
        cases h
        rcases List.mem_cons.1 hy with rfl | hy
        · exact Nat.le_refl _
        · exact Nat.le_trans (Nat.le_of_not_lt hc) (ih heq y hy)

theorem pickEarliest_cons_of_min {x : Kind × IMatch} {xs : List (Kind × IMatch)}
    (h : ∀ y ∈ xs, x.2.ms ≤ y.2.ms) : pickEarliest (x :: xs) = some x := by
  rw [pickEarliest]
  split
  · rfl
  · rename_i y heq
    have hy := pickEarliest_mem heq
    rw [if_neg (Nat.not_lt.mpr (h y hy))]

/-- On a list whose kind indices are nondecreasing, the selected entry has
the least kind index among entries tying its match start (stable-sort
tie-breaking to pattern order). -/
theorem pickEarliest_tie : ∀ {l : List (Kind × IMatch)},
    l.Pairwise (fun a b => kindIdx a.1 ≤ kindIdx b.1) →
    ∀ {x}, pickEarliest l = some x →
    ∀ y ∈ l, y.2.ms = x.2.ms → kindIdx x.1 ≤ kindIdx y.1 := by
  intro l
  induction l with
  | nil => intro _ x h; simp [pickEarliest] at h
  | cons a xs ih =>
    intro hs x h y hy hms
    rw [List.pairwise_cons] at hs
    rw [pickEarliest] at h
    split at h
    · rename_i heq
      cases h
      have := pickEarliest_eq_none heq
      subst this
      rcases List.mem_cons.1 hy with rfl | hy
      · exact Nat.le_refl _
      · cases hy
    · rename_i z heq
      split at h
      · rename_i hc
        cases h
        rcases List.mem_cons.1 hy with rfl | hy
        · omega
        · exact ih hs.2 heq y hy hms
      · cases h
        rcases List.mem_cons.1 hy with rfl | hy
        · exact Nat.le_refl _
        · exact hs.1 y hy

theorem mem_optCand {k : Kind} {o : Option IMatch} {x : Kind × IMatch}
    (h : x ∈ optCand k o) : x.1 = k ∧ o = some x.2 := by
  cases o with
  | none => simp [optCand] at h
  | some m =>
    simp [optCand] at h
    subst h
    exact ⟨rfl, rfl⟩

/-- Membership in the candidate list, unpacked to the four searches. -/
theorem mem_candidates {t : List Char} {pos : Nat} {x : Kind × IMatch}
    (h : x ∈ candidates t pos) :
    (x.1 = Kind.bold ∧ regexSearch (boldAt t) pos t.length = some x.2) ∨
    (x.1 = Kind.italic ∧ regexSearch (singleDelimAt '*' t) pos t.length = some x.2) ∨
    (x.1 = Kind.code ∧ regexSearch (singleDelimAt btick t) pos t.length = some x.2) ∨
    (x.1 = Kind.link ∧ regexSearch (linkAt t) pos t.length = some x.2) := by
  unfold candidates at h
  rcases List.mem_append.1 h with h123 | h4
  · rcases List.mem_append.1 h123 with h12 | h3
    · rcases List.mem_append.1 h12 with h1 | h2
      · exact Or.inl (mem_optCand h1)
      · exact Or.inr (Or.inl (mem_optCand h2))
    · exact Or.inr (Or.inr (Or.inl (mem_optCand h3)))
  · exact Or.inr (Or.inr (Or.inr (mem_optCand h4)))

theorem boldAt_shape {t : List Char} {s : Nat} {m : IMatch} (h : boldAt t s = some m) :
    m.ms = s ∧ s + 5 ≤ m.me ∧ m.g1 = sub t (m.ms + 2) (m.me - 2) := by
  unfold boldAt at h
  split at h
  · split at h
    · rename_i e heq
      cases h
      have hle := (findFrom_some heq).1
      refine ⟨rfl, ?_, ?_⟩
      · show s + 5 ≤ e + 2
        omega
      · rfl
    · cases h
  · cases h

theorem singleDelimAt_shape {d : Char} {t : List Char} {s : Nat} {m : IMatch}
    (h : singleDelimAt d t s = some m) :
    m.ms = s ∧ s + 3 ≤ m.me ∧ m.g1 = sub t (m.ms + 1) (m.me - 1) := by
  unfold singleDelimAt at h
  split at h
  · split at h
    · rename_i e heq
      cases h
      have hle := (findFrom_some heq).1
      refine ⟨rfl, ?_, ?_⟩
      · show s + 3 ≤ e + 1
        omega
      · rfl
    · cases h
  · cases h

theorem linkAt_shape {t : List Char} {s : Nat} {m : IMatch} (h : linkAt t s = some m) :
    m.ms = s ∧ s + 6 ≤ m.me := by
  unfold linkAt at h
  split at h
  · split at h
    · rename_i j heqj
      split at h
      · rename_i hcond
        split at h
        · rename_i k heqk
          split at h
          · rename_i hk3
            cases h
            have h2le : s + 2 ≤ j := hcond.1
            refine ⟨rfl, ?_⟩
            show s + 6 ≤ k + 1
            omega
          · cases h
        · cases h
      · cases h
    · cases h
  · cases h

/-- Every candidate starts at or after the scan position, ends strictly after
it, and its emitted run text is exactly the span content the spec describes. -/
theorem candidates_shape {t : List Char} {pos : Nat} {k : Kind} {m : IMatch}
    (h : (k, m) ∈ candidates t pos) :
    pos ≤ m.ms ∧ pos < m.me ∧ runText (mkRun k m) = specContent t k m := by
  rcases mem_candidates h with ⟨hk, hm⟩ | ⟨hk, hm⟩ | ⟨hk, hm⟩ | ⟨hk, hm⟩ <;>
    simp only at hk hm <;> subst hk <;>
    obtain ⟨s, hs, hmatch⟩ := searchAux_some hm
  · obtain ⟨h1, h2, h3⟩ := boldAt_shape hmatch
    exact ⟨by omega, by omega, by simpa [mkRun, runText, specContent] using h3⟩
  · obtain ⟨h1, h2, h3⟩ := singleDelimAt_shape hmatch
    exact ⟨by omega, by omega, by simpa [mkRun, runText, specContent] using h3⟩
  · obtain ⟨h1, h2, h3⟩ := singleDelimAt_shape hmatch
    exact ⟨by omega, by omega, by simpa [mkRun, runText, specContent] using h3⟩
  · obtain ⟨h1, h2⟩ := linkAt_shape hmatch
    exact ⟨by omega, by omega, by simp [mkRun, runText, specContent]⟩

/-- The candidate list is ordered by the fixed pattern check order. -/
theorem candidates_sorted (t : List Char) (pos : Nat) :
    (candidates t pos).Pairwise (fun a b => kindIdx a.1 ≤ kindIdx b.1) := by
  unfold candidates
  cases regexSearch (boldAt t) pos t.length <;>
    cases regexSearch (singleDelimAt '*' t) pos t.length <;>
    cases regexSearch (singleDelimAt btick t) pos t.length <;>
    cases regexSearch (linkAt t) pos t.length <;>
    simp [optCand, kindIdx, List.pairwise_cons]

/-- The emitted run texts of the scan loop concatenate, step for step, to the
spec-side strip of the payload, for every fuel and scan position. -/
theorem runsText_inlineGoF (fuel : Nat) (t : List Char) :
    ∀ pos, runsText (inlineGoF fuel t pos) = stripGoF fuel t pos := by
  induction fuel with
  | zero => intro pos; rfl
  | succ fuel ih =>
    intro pos
    rw [inlineGoF, stripGoF]
    split
    · cases hp : pickEarliest (candidates t pos) with
      | none => simp [runsText, runText]
      | some km =>
        obtain ⟨k, m⟩ := km
        obtain ⟨hpos, hlt, hshape⟩ := candidates_shape (pickEarliest_mem hp)
        have ih2 : (List.map runText (inlineGoF fuel t m.me)).flatten = stripGoF fuel t m.me :=
          ih m.me
        have hplain : ∀ s, runText (Run.plain s) = s := fun _ => rfl
        by_cases hpm : pos < m.ms
        · simp [hpm, runsText, hshape, ih2, hplain]
        · have hsub : sub t pos m.ms = [] := by
            unfold sub
            have : m.ms - pos = 0 := by omega
            simp [this]
          simp [hpm, runsText, hshape, ih2, hplain, hsub]
    · rfl

/-- C1.  For every text payload given to the inline formatter, the
concatenation of the emitted plain-run texts and styled-run contents (bold,
italic, code, link display text), in order, equals the payload with its
inline markup delimiters stripped: every kept literal character appears
exactly once, and only the consumed markup is missing. -/
theorem inline_roundtrip_literal_content (t : List Char) :
    runsText (inlineRuns t) = stripMarkup t :=
  runsText_inlineGoF (t.length + 1) t 0

/-- C2.  The inline formatter selects, among the patterns matching at or
after the scan position, the match starting earliest; on equal starts the
pattern earliest in the fixed order bold, italic, code, link wins; in
particular a bold match whose start is minimal is always the selection. -/
theorem inline_earliest_match_precedence :
    (∀ (t : List Char) (pos : Nat) (x y : Kind × IMatch),
      pickEarliest (candidates t pos) = some x → y ∈ candidates t pos →
        x.2.ms ≤ y.2.ms) ∧
    (∀ (t : List Char) (pos : Nat) (x y : Kind × IMatch),
      pickEarliest (candidates t pos) = some x → y ∈ candidates t pos →
        y.2.ms = x.2.ms → kindIdx x.1 ≤ kindIdx y.1) ∧
    (∀ (t : List Char) (pos : Nat) (m : IMatch),
      regexSearch (boldAt t) pos t.length = some m →
      (∀ y ∈ candidates t pos, m.ms ≤ y.2.ms) →
      pickEarliest (candidates t pos) = some (Kind.bold, m)) := by
  refine ⟨?_, ?_, ?_⟩
  · intro t pos x y hp hy
    exact pickEarliest_min hp y hy
  · intro t pos x y hp hy hms
    exact pickEarliest_tie (candidates_sorted t pos) hp y hy hms
  · intro t pos m hb hmin
    have hcand : candidates t pos =
        (Kind.bold, m) :: (optCand .italic (regexSearch (singleDelimAt '*' t) pos t.length) ++
          optCand .code (regexSearch (singleDelimAt btick t) pos t.length) ++
          optCand .link (regexSearch (linkAt t) pos t.length)) := by
      unfold candidates
      rw [hb]
      simp [optCand]
    rw [hcand]
    apply pickEarliest_cons_of_min
    intro y hy
    apply hmin
    rw [hcand]
    exact List.mem_cons_of_mem _ hy

/-- Witness for C2 at a payload where a bold span and an italic span start at
the same index 0: the bold candidate is selected. -/
theorem inline_earliest_match_precedence_witness :
    pickEarliest (candidates (toL "**x** *y*") 0) =
      some (Kind.bold, ⟨0, 5, toL "x", []⟩) := by
  have h := inline_earliest_match_precedence.2.2 (toL "**x** *y*") 0
    ⟨0, 5, toL "x", []⟩ (by decide) (by decide)
  exact h

/-! ### Guards of the block classifier -/

theorem isFence_false_of_head (c : Char) (l : List Char)
    (h : (toL "```").head? ≠ some c) : isFence (c :: l) = false := by
  simp only [isFence, decide_eq_false_iff_not]
  intro heq
  apply h
  rw [← heq]
  simp

theorem isTableRow_false_of_head (c : Char) (l : List Char) (h : c ≠ '|') :
    isTableRow (c :: l) = false := by
  simp [isTableRow, h]

/-- A line that opens with a pipe matches none of the heading or list
patterns, so the single-line cascade classifies it as a plain paragraph. -/
theorem classifyLine_pipe (l : List Char) : classifyLine ('|' :: l) = LineClass.par := by
  have hhdr : ∀ n, matchHdr n ('|' :: l) = none := by
    intro n
    unfold matchHdr
    rw [if_neg]
    intro hcontra
    obtain ⟨h1, h2⟩ := hcontra
    cases n with
    | zero => simp at h1
    | succ n =>
      rw [List.take_succ_cons, List.replicate_succ] at h1
      simp at h1
  have hbul : matchBullet ('|' :: l) = none := by
    unfold matchBullet
    rw [if_neg]
    intro hcontra
    rcases hcontra.1 with h | h <;> simp at h
  have hnum : matchNumbered ('|' :: l) = none := by
    unfold matchNumbered
    rw [if_neg]
    intro hcontra
    have : ('|' :: l).takeWhile Char.isDigit = [] := by
      rw [List.takeWhile_cons]
      simp [Char.isDigit]
    exact hcontra.1 this
  have hnb : matchNestedBullet ('|' :: l) = none := by
    unfold matchNestedBullet
    rw [if_neg]
    intro hcontra
    rw [List.take_succ_cons] at hcontra
    simp at hcontra
  have hnn : matchNestedNumbered ('|' :: l) = none := by
    unfold matchNestedNumbered
    rw [if_neg]
    intro hcontra
    rw [List.take_succ_cons] at hcontra
    simp at hcontra
  unfold classifyLine
  rw [hhdr 1, hhdr 2, hhdr 3, hnb, hnn, hbul, hnum]

/-! ### C5 and C8: code fences -/

/-- C5 (amended).  Fence mode is toggled exactly by lines beginning with the
fence marker (three backticks): such a line entering fence mode consumes no
other rule; while fence mode is on, every line not beginning with the marker
is appended verbatim to the accumulator; and a marker line leaving fence mode
flushes the accumulated lines as one paragraph in which each original line is
its own run terminated by a line break, with no inline formatting applied. -/
theorem fence_toggle_steps :
    (∀ (f : Nat) (acc : List (List Char)) (line : List Char) (rest : List (List Char)),
      isFence line = true →
        convGoF (f + 1) false acc (line :: rest) = convGoF f true acc rest) ∧
    (∀ (f : Nat) (acc : List (List Char)) (line : List Char) (rest : List (List Char)),
      isFence line = false →
        convGoF (f + 1) true acc (line :: rest) = convGoF f true (acc ++ [line]) rest) ∧
    (∀ (f : Nat) (acc : List (List Char)) (line : List Char) (rest : List (List Char)),
      isFence line = true → acc ≠ [] →
        convGoF (f + 1) true acc (line :: rest) =
          codeFlush acc :: convGoF f false [] rest) := by
  refine ⟨?_, ?_, ?_⟩
  · intro f acc line rest hf
    simp [convGoF, hf]
  · intro f acc line rest hf
    simp [convGoF, hf]
  · intro f acc line rest hf hacc
    cases acc with
    | nil => exact absurd rfl hacc
    | cons a as => simp [convGoF, hf]

/-- Witness for C5: a fence line starts fence mode, a non-fence line is
accumulated verbatim, and a closing fence flushes the accumulator. -/
theorem fence_toggle_steps_witness :
    convGoF 3 false [] [toL "```", toL "a", toL "```"] =
      [codeFlush [toL "a"]] := by
  rw [fence_toggle_steps.1 2 [] (toL "```") [toL "a", toL "```"] (by decide)]
  rw [fence_toggle_steps.2.1 1 [] (toL "a") [toL "```"] (by decide), List.nil_append]
  rw [fence_toggle_steps.2.2 0 [toL "a"] (toL "```") [] (by decide) (by decide)]
  rfl

/-- Counterexample to C5 as stated: the line made of three backticks followed
by `python` is not solely a fence marker, yet it toggles fence mode, so the
following bold-marked line is treated as literal fence content and flushed
verbatim at end of input instead of being formatted. -/
theorem fence_marker_only_toggle_counterexample :
    convGoF 2 false [] [toL "```python", toL "**b**"] =
      [DocBlock.para PStyle.normal [Run.plain (toL "**b**" ++ ['\n'])]] ∧
    toL "```python" ≠ toL "```" := by
  constructor
  · rfl
  · decide

/-- C8.  If the input ends while fence mode is still on, the nonempty
accumulator is flushed as a paragraph at end of input (and an input whose
fence is never closed converts without error). -/
theorem unterminated_fence_flush :
    (∀ (f : Nat) (acc : List (List Char)), acc ≠ [] →
      convGoF f true acc [] = [codeFlush acc]) ∧
    mdToDocx [toL "```", toL "x"] =
      [DocBlock.para PStyle.normal [Run.plain (toL "x" ++ ['\n'])]] := by
  constructor
  · intro f acc hacc
    cases acc with
    | nil => exact absurd rfl hacc
    | cons a as =>
      cases f <;> simp [convGoF, codeFlush]
  · rfl

/-- Witness for C8 at a concrete nonempty accumulator. -/
theorem unterminated_fence_flush_witness :
    convGoF 0 true [toL "x"] [] = [codeFlush [toL "x"]] :=
  unterminated_fence_flush.1 0 [toL "x"] (by decide)

/-! ### C3, C4, C10: tables -/

/-- C3.  A pipe-opening line whose following lines do not complete a valid
table structure (divider line, then another row line) is not treated as a
table: it falls through to the plain-paragraph rule, which keeps its pipes
literally; in particular the spec's lone-pipe-row scenario renders as one
plain paragraph.  No branch of the classifier is partial, so no error can be
raised. -/
theorem malformed_table_falls_through :
    (∀ (f : Nat) (line : List Char) (rest : List (List Char)),
      line.head? = some '|' → isValidTable (line :: rest) = false →
      convGoF (f + 1) false [] (line :: rest) =
        (if (pyStrip (htmlStrongSub line)).isEmpty then []
         else [DocBlock.para PStyle.normal (inlineRuns (htmlStrongSub line))]) ++
          convGoF f false [] rest) ∧
    convGoF 1 false [] [toL "| just one pipe row with no divider after |"] =
      [DocBlock.para PStyle.normal
        [Run.plain (toL "| just one pipe row with no divider after |")]] := by
  constructor
  · intro f line rest hhead hvalid
    cases line with
    | nil => simp at hhead
    | cons c l =>
      rw [List.head?_cons, Option.some.injEq] at hhead
      subst hhead
      have hfence := isFence_false_of_head '|' l (by decide)
      have hcls := classifyLine_pipe l
      simp [convGoF, hfence, hvalid, hcls]
  · decide

/-- Witness for C3: a single row-shaped line with no divider after it becomes
a plain paragraph with its pipes kept. -/
theorem malformed_table_falls_through_witness :
    convGoF 1 false [] [toL "|a|"] =
      [DocBlock.para PStyle.normal [Run.plain (toL "|a|")]] := by
  rw [malformed_table_falls_through.1 0 (toL "|a|") [] (by decide) (by decide)]
  decide

/-- Rows corrected to the header width always have exactly that width. -/
theorem padTrunc_length (row : List (List Char)) (n : Nat) :
    (padTrunc row n).length = n := by
  simp [padTrunc, List.length_take, List.length_append, List.length_replicate]
  omega

/-- C4.  Every table the converter emits satisfies the column-count
invariant: each data row has exactly as many cells as the header (short rows
were padded, long rows truncated, and the count comes from the header alone).
The correction is total, so it can raise no error. -/
theorem table_column_count_invariant :
    ∀ (f : Nat) (inCode : Bool) (acc lines : List (List Char))
      (h : List (List Char)) (rs : List (List (List Char))),
      DocBlock.table h rs ∈ convGoF f inCode acc lines →
      ∀ r ∈ rs, r.length = h.length := by
  intro f
  induction f with
  | zero =>
    intro inCode acc lines h rs hmem r hr
    cases lines with
    | nil =>
      rw [convGoF] at hmem
      split at hmem
      · simp [codeFlush] at hmem
      · simp at hmem
    | cons line rest => simp [convGoF] at hmem
  | succ f ih =>
    intro inCode acc lines h rs hmem r hr
    cases lines with
    | nil =>
      rw [convGoF] at hmem
      split at hmem
      · simp [codeFlush] at hmem
      · simp at hmem
    | cons line rest =>
      rw [convGoF] at hmem
      split at hmem
      · -- fence line
        split at hmem
        · rcases List.mem_append.1 hmem with hmem | hmem
          · split at hmem
            · simp [codeFlush] at hmem
            · simp at hmem
          · exact ih false [] rest h rs hmem r hr
        · exact ih true acc rest h rs hmem r hr
      · split at hmem
        · -- inside a fence
          exact ih inCode (acc ++ [line]) rest h rs hmem r hr
        · split at hmem
          · -- table branch
            rcases List.mem_cons.1 hmem with heq | hmem
            · obtain ⟨hh, hrs⟩ := DocBlock.table.inj heq.symm
              subst hh
              subst hrs
              obtain ⟨l, _, rfl⟩ := List.mem_map.1 hr
              exact padTrunc_length _ _
            · exact ih inCode acc _ h rs hmem r hr
          · rcases List.mem_append.1 hmem with hmem | hmem
            · cases hcl : classifyLine line <;> rw [hcl] at hmem <;> simp at hmem
            · exact ih inCode acc rest h rs hmem r hr

/-- Witness for C4 at a table whose data row is longer than the header: the
row is truncated to the header's two cells. -/
theorem table_column_count_invariant_witness :
    DocBlock.table [toL "a", toL "b"] [[toL "1", toL "2"]] ∈
        convGoF 3 false [] [toL "|a|b|", toL "|-|-|", toL "|1|2|3|"] ∧
      [toL "1", toL "2"].length = [toL "a", toL "b"].length := by
  constructor
  · decide
  · exact table_column_count_invariant 3 false []
      [toL "|a|b|", toL "|-|-|", toL "|1|2|3|"]
      [toL "a", toL "b"] [[toL "1", toL "2"]] (by decide) _ (by decide)

/-- C10.  A line of whitespace only satisfies the divider pattern, so a row
line, a spaces-only line, and another row line are detected as a table with
the spaces-only line consumed as the divider. -/
theorem whitespace_divider_accepted :
    (∀ l : List Char, l ≠ [] → (∀ c ∈ l, c = ' ') → isTableDivider l = true) ∧
    convGoF 3 false [] [toL "|a|", toL "   ", toL "|b|"] =
      [DocBlock.table [toL "a"] [[toL "b"]]] := by
  constructor
  · intro l hne hsp
    unfold isTableDivider
    rw [Bool.and_eq_true]
    constructor
    · cases l with
      | nil => exact absurd rfl hne
      | cons a as => simp
    · rw [List.all_eq_true]
      intro c hc
      rw [hsp c hc]
      decide
  · decide

/-- Witness for C10 at the one-space line. -/
theorem whitespace_divider_accepted_witness : isTableDivider [' '] = true :=
  whitespace_divider_accepted.1 [' '] (by decide) (by decide)

/-! ### C6: headings -/

/-- C6 (amended).  A line of one to three hash marks, a space, and a nonempty
remainder is emitted as a heading of that level whose text is the raw
remainder — no inline formatting is applied (the heading node carries plain
text, not runs). -/
theorem heading_raw_text (n : Nat) (t : List Char) (f : Nat) (rest : List (List Char))
    (h1 : 1 ≤ n) (h2 : n ≤ 3) (ht : t ≠ []) :
    convGoF (f + 1) false [] ((List.replicate n '#' ++ ' ' :: t) :: rest) =
      DocBlock.heading n t :: convGoF f false [] rest := by
  have hpos : 0 < t.length := List.length_pos.mpr ht
  interval_cases n
  · have hfence := isFence_false_of_head '#' (' ' :: t) (by decide)
    have hrow := isTableRow_false_of_head '#' (' ' :: t) (by decide)
    have hcls : classifyLine ('#' :: ' ' :: t) = LineClass.hdr 1 t := by
      unfold classifyLine
      have hm : matchHdr 1 ('#' :: ' ' :: t) = some t := by
        unfold matchHdr
        rw [if_pos ⟨rfl, by simp; omega⟩]
        simp
      rw [hm]
    simp [convGoF, hfence, hrow, hcls]
  · have hfence := isFence_false_of_head '#' ('#' :: ' ' :: t) (by decide)
    have hrow := isTableRow_false_of_head '#' ('#' :: ' ' :: t) (by decide)
    have hcls : classifyLine ('#' :: '#' :: ' ' :: t) = LineClass.hdr 2 t := by
      unfold classifyLine
      have hm1 : matchHdr 1 ('#' :: '#' :: ' ' :: t) = none := by
        unfold matchHdr
        rw [if_neg]
        intro hcon
        simp at hcon
      have hm2 : matchHdr 2 ('#' :: '#' :: ' ' :: t) = some t := by
        unfold matchHdr
        rw [if_pos ⟨by simp [List.replicate_succ], by simp; omega⟩]
        simp
      rw [hm1, hm2]
    simp [convGoF, hfence, hrow, hcls]
  · have hfence := isFence_false_of_head '#' ('#' :: '#' :: ' ' :: t) (by decide)
    have hrow := isTableRow_false_of_head '#' ('#' :: '#' :: ' ' :: t) (by decide)
    have hcls : classifyLine ('#' :: '#' :: '#' :: ' ' :: t) = LineClass.hdr 3 t := by
      unfold classifyLine
      have hm1 : matchHdr 1 ('#' :: '#' :: '#' :: ' ' :: t) = none := by
        unfold matchHdr
        rw [if_neg]
        intro hcon
        simp at hcon
      have hm2 : matchHdr 2 ('#' :: '#' :: '#' :: ' ' :: t) = none := by
        unfold matchHdr
        rw [if_neg]
        intro hcon
        simp [List.replicate_succ] at hcon
      have hm3 : matchHdr 3 ('#' :: '#' :: '#' :: ' ' :: t) = some t := by
        unfold matchHdr
        rw [if_pos ⟨by simp [List.replicate_succ], by simp; omega⟩]
        simp
      rw [hm1, hm2, hm3]
    simp [convGoF, hfence, hrow, hcls]

/-- Witness for C6 at a level-2 heading line. -/
theorem heading_raw_text_witness :
    convGoF 1 false [] [toL "## Ti"] = [DocBlock.heading 2 (toL "Ti")] := by
  have h := heading_raw_text 2 (toL "Ti") 0 [] (by decide) (by decide) (by decide)
  simpa using h

/-- Counterexample to C6 as stated: the line of one hash mark and a space
(and nothing more) begins with a marker followed by a space, yet the
converter renders it as a plain paragraph, not a heading (the pattern
requires a nonempty remainder). -/
theorem heading_marker_space_only_counterexample :
    mdToDocx [toL "# "] = [DocBlock.para PStyle.normal [Run.plain (toL "# ")]] ∧
      (toL "# ") = List.replicate 1 '#' ++ [' '] := by
  constructor
  · decide
  · decide

/-! ### C7: nested lists -/

/-- A digit run followed by a period is exactly what `\d+` consumes. -/
theorem takeWhile_digits_append (ds l : List Char) (h : ds.all Char.isDigit = true) :
    (ds ++ '.' :: l).takeWhile Char.isDigit = ds := by
  induction ds with
  | nil =>
    rw [List.nil_append, List.takeWhile_cons, if_neg (by decide)]
  | cons a as ih =>
    rw [List.all_cons, Bool.and_eq_true] at h
    rw [List.cons_append, List.takeWhile_cons, if_pos h.1, ih h.2]

/-- C7 (amended).  A line of exactly two spaces, then a bullet marker (`-` or
`*`) or a numeric ordinal and a period, then a space and a nonempty
remainder, becomes a second-level list paragraph whose runs are the inline
formatting of the remainder (for numbered items the remainder after the
ordinal, period and space — capture group two, not the ordinal); the nested
patterns, tried before the top-level ones, claim the line. -/
theorem nested_list_item_formatting :
    (∀ (f : Nat) (c : Char) (t : List Char) (rest : List (List Char)),
      (c = '-' ∨ c = '*') → t ≠ [] →
      convGoF (f + 1) false [] ((' ' :: ' ' :: c :: ' ' :: t) :: rest) =
        DocBlock.para PStyle.bullet2 (inlineRuns t) :: convGoF f false [] rest) ∧
    (∀ (f : Nat) (d : Char) (ds t : List Char) (rest : List (List Char)),
      d.isDigit = true → ds.all Char.isDigit = true → t ≠ [] →
      convGoF (f + 1) false [] ((' ' :: ' ' :: ((d :: ds) ++ '.' :: ' ' :: t)) :: rest) =
        DocBlock.para PStyle.number2 (inlineRuns t) :: convGoF f false [] rest) := by
  constructor
  · intro f c t rest hc ht
    have hpos : 0 < t.length := List.length_pos.mpr ht
    have hfence := isFence_false_of_head ' ' (' ' :: c :: ' ' :: t) (by decide)
    have hrow := isTableRow_false_of_head ' ' (' ' :: c :: ' ' :: t) (by decide)
    have hcls : classifyLine (' ' :: ' ' :: c :: ' ' :: t) = LineClass.nestedB t := by
      unfold classifyLine
      have hm1 : matchHdr 1 (' ' :: ' ' :: c :: ' ' :: t) = none := by
        unfold matchHdr
        rw [if_neg]
        intro hcon
        simp at hcon
      have hm2 : matchHdr 2 (' ' :: ' ' :: c :: ' ' :: t) = none := by
        unfold matchHdr
        rw [if_neg]
        intro hcon
        simp [List.replicate_succ] at hcon
      have hm3 : matchHdr 3 (' ' :: ' ' :: c :: ' ' :: t) = none := by
        unfold matchHdr
        rw [if_neg]
        intro hcon
        simp [List.replicate_succ] at hcon
      have hnb : matchNestedBullet (' ' :: ' ' :: c :: ' ' :: t) = some t := by
        unfold matchNestedBullet
        rw [if_pos (by simp)]
        show matchBullet (c :: ' ' :: t) = some t
        unfold matchBullet
        rw [if_pos]
        · simp
        · refine ⟨?_, rfl, ?_⟩
          · rcases hc with rfl | rfl
            · exact Or.inl rfl
            · exact Or.inr rfl
          · simp
            omega
      rw [hm1, hm2, hm3, hnb]
    simp [convGoF, hfence, hrow, hcls]
  · intro f d ds t rest hd hds ht
    have hpos : 0 < t.length := List.length_pos.mpr ht
    have hfence := isFence_false_of_head ' ' (' ' :: ((d :: ds) ++ '.' :: ' ' :: t)) (by decide)
    have hrow := isTableRow_false_of_head ' ' (' ' :: ((d :: ds) ++ '.' :: ' ' :: t)) (by decide)
    have hcls : classifyLine (' ' :: ' ' :: ((d :: ds) ++ '.' :: ' ' :: t)) =
        LineClass.nestedN t := by
      unfold classifyLine
      have hm1 : matchHdr 1 (' ' :: ' ' :: ((d :: ds) ++ '.' :: ' ' :: t)) = none := by
        unfold matchHdr
        rw [if_neg]
        intro hcon
        simp at hcon
      have hm2 : matchHdr 2 (' ' :: ' ' :: ((d :: ds) ++ '.' :: ' ' :: t)) = none := by
        unfold matchHdr
        rw [if_neg]
        intro hcon
        simp [List.replicate_succ] at hcon
      have hm3 : matchHdr 3 (' ' :: ' ' :: ((d :: ds) ++ '.' :: ' ' :: t)) = none := by
        unfold matchHdr
        rw [if_neg]
        intro hcon
        simp [List.replicate_succ] at hcon
      have hnb : matchNestedBullet (' ' :: ' ' :: ((d :: ds) ++ '.' :: ' ' :: t)) = none := by
        unfold matchNestedBullet
        rw [if_pos (by simp)]
        show matchBullet ((d :: ds) ++ '.' :: ' ' :: t) = none
        unfold matchBullet
        rw [if_neg]
        intro hcon
        rcases hcon.1 with hcon1 | hcon1 <;>
        · rw [List.cons_append, List.head?_cons, Option.some.injEq] at hcon1
          subst hcon1
          exact absurd hd (by decide)
      have htw : ((d :: ds) ++ '.' :: ' ' :: t).takeWhile Char.isDigit = d :: ds :=
        takeWhile_digits_append (d :: ds) (' ' :: t) (by simp [hd, hds])
      have hnn : matchNestedNumbered (' ' :: ' ' :: ((d :: ds) ++ '.' :: ' ' :: t)) =
          some (d :: ds, t) := by
        unfold matchNestedNumbered
        rw [if_pos (by simp)]
        show matchNumbered ((d :: ds) ++ '.' :: ' ' :: t) = some (d :: ds, t)
        unfold matchNumbered
        simp only [htw]
        rw [if_pos]
        · have hdrop : ((d :: ds) ++ '.' :: ' ' :: t).drop ((d :: ds).length + 2) = t := by
            have hsplit : (d :: ds) ++ '.' :: ' ' :: t = ((d :: ds) ++ ['.', ' ']) ++ t := by
              simp
            rw [hsplit]
            have hlen : ((d :: ds) ++ ['.', ' ']).length = (d :: ds).length + 2 := by
              simp
            rw [← hlen, List.drop_left]
          rw [hdrop]
        · refine ⟨by simp, ?_, ?_⟩
          · rw [List.drop_left]
            rfl
          · simp
            omega
      rw [hm1, hm2, hm3, hnb, hnn]
    simp only [List.cons_append] at hfence hrow hcls
    simp [convGoF, hfence, hrow, hcls]

/-- Witness for C7: the spec's scenario line and a nested numbered line. -/
theorem nested_list_item_formatting_witness :
    convGoF 1 false [] [toL "  - sub point"] =
        [DocBlock.para PStyle.bullet2 (inlineRuns (toL "sub point"))] ∧
      convGoF 1 false [] [toL "  12. np"] =
        [DocBlock.para PStyle.number2 (inlineRuns (toL "np"))] := by
  constructor
  · have h := nested_list_item_formatting.1 0 '-' (toL "sub point") []
      (Or.inl rfl) (by decide)
    simpa using h
  · have h := nested_list_item_formatting.2 0 '1' ['2'] (toL "np") []
      (by decide) (by decide) (by decide)
    simpa using h

/-- Counterexample to C7 as stated: the line of two spaces, a bullet marker
and then a nonspace character has exactly two leading spaces followed by a
bullet marker, yet it renders as a plain paragraph (the pattern also demands
a space after the marker). -/
theorem nested_marker_without_space_counterexample :
    mdToDocx [toL "  -x"] = [DocBlock.para PStyle.normal [Run.plain (toL "  -x")]] ∧
      toL "  -x" = ' ' :: ' ' :: '-' :: [ 'x' ] := by
  constructor
  · decide
  · decide

/-! ### C9: filename sanitization -/

theorem mem_of_mem_dropWhile {c : Char} {p : Char → Bool} :
    ∀ {l : List Char}, c ∈ l.dropWhile p → c ∈ l := by
  intro l
  induction l with
  | nil => intro h; simp [List.dropWhile] at h
  | cons a as ih =>
    intro h
    rw [List.dropWhile_cons] at h
    split at h
    · exact List.mem_cons_of_mem _ (ih h)
    · exact h

theorem mem_stripChars {c : Char} {l : List Char} {p : Char → Bool}
    (h : c ∈ stripChars l p) : c ∈ l := by
  unfold stripChars at h
  rw [List.mem_reverse] at h
  have h1 := mem_of_mem_dropWhile h
  rw [List.mem_reverse] at h1
  exact mem_of_mem_dropWhile h1

/-- C9 (amended).  For a UUID string over the safe alphabet not itself ending
in `.docx`: the produced name contains only characters of `[A-Za-z0-9_.-]`
and ends with `.docx` up to ASCII letter case (the literal-case suffix can
differ, see the counterexample); an absent or empty input, or one whose
sanitized form strips to nothing, yields the UUID-based name. -/
theorem safe_filename_properties :
    ∀ (name? : Option (List Char)) (uuid : List Char),
      (∀ c ∈ uuid, validChar c = true) → lowerEndsDocx uuid = false →
      (∀ c ∈ safeFilename name? uuid, validChar c = true) ∧
      (toL ".docx" <:+ (safeFilename name? uuid).map Char.toLower) ∧
      ((name? = none ∨ name? = some []) → safeFilename name? uuid = uuid ++ toL ".docx") ∧
      (∀ name, name? = some name → name ≠ [] → stripDotUnd (sanitize name) = [] →
        safeFilename name? uuid = uuid ++ toL ".docx") := by
  intro name? uuid huuid hudocx
  have hdocxval : ∀ c ∈ toL ".docx", validChar c = true := by decide
  have hlowfix : (toL ".docx").map Char.toLower = toL ".docx" := by decide
  have happend : ∀ l : List Char, toL ".docx" <:+ (l ++ toL ".docx").map Char.toLower := by
    intro l
    rw [List.map_append, hlowfix]
    exact List.suffix_append _ _
  have happval : ∀ l : List Char, (∀ c ∈ l, validChar c = true) →
      ∀ c ∈ l ++ toL ".docx", validChar c = true := by
    intro l hl c hc
    rcases List.mem_append.1 hc with hc | hc
    · exact hl c hc
    · exact hdocxval c hc
  cases name? with
  | none =>
    refine ⟨happval uuid huuid, happend uuid, fun _ => rfl, ?_⟩
    intro name hn
    cases hn
  | some name =>
    by_cases hne : name = []
    · subst hne
      have hres : safeFilename (some []) uuid = uuid ++ toL ".docx" := by
        simp [safeFilename]
      rw [hres]
      exact ⟨happval uuid huuid, happend uuid, fun _ => rfl, fun _ _ _ _ => rfl⟩
    · have hsanval : ∀ c ∈ sanitize name, validChar c = true := by
        intro c hc
        obtain ⟨a, _, rfl⟩ := List.mem_map.1 hc
        by_cases hva : validChar a = true
        · simp [hva]
        · rw [if_neg hva]
          decide
      have hn2val : ∀ c ∈ stripDotUnd (sanitize name), validChar c = true :=
        fun c hc => hsanval c (mem_stripChars hc)
      have hvac : (some name = none ∨ some name = some ([] : List Char)) → False := by
        intro hcon
        rcases hcon with hcon | hcon
        · cases hcon
        · rw [Option.some.injEq] at hcon
          exact hne hcon
      by_cases h2 : stripDotUnd (sanitize name) = []
      · have hres : safeFilename (some name) uuid = uuid ++ toL ".docx" := by
          simp [safeFilename, hne, h2, hudocx]
        rw [hres]
        exact ⟨happval uuid huuid, happend uuid,
          fun hcon => absurd hcon (fun h => hvac h),
          fun _ _ _ _ => rfl⟩
      · by_cases h3 : lowerEndsDocx (stripDotUnd (sanitize name)) = true
        · have hres : safeFilename (some name) uuid = stripDotUnd (sanitize name) := by
            simp [safeFilename, hne, h2, h3]
          rw [hres]
          refine ⟨hn2val, of_decide_eq_true h3, fun hcon => absurd hcon (fun h => hvac h), ?_⟩
          intro name' heq _ hstrip
          rw [Option.some.injEq] at heq
          subst heq
          exact absurd hstrip h2
        · have hres : safeFilename (some name) uuid =
              stripDotUnd (sanitize name) ++ toL ".docx" := by
            simp [safeFilename, hne, h2, h3]
          rw [hres]
          refine ⟨happval _ hn2val, happend _,
            fun hcon => absurd hcon (fun h => hvac h), ?_⟩
          intro name' heq _ hstrip
          rw [Option.some.injEq] at heq
          subst heq
          exact absurd hstrip h2

/-- Witness for C9 at a name with characters outside the safe alphabet. -/
theorem safe_filename_properties_witness :
    toL ".docx" <:+ (safeFilename (some (toL "My File!")) (toL "abc")).map Char.toLower :=
  (safe_filename_properties (some (toL "My File!")) (toL "abc")
    (by decide) (by decide)).2.1

/-- Counterexample to C9 as stated: the caller-supplied name `A.DOCX` already
ends in `.docx` case-insensitively, so it is returned unchanged and the
result does not literally end with the lowercase `.docx` the claim states. -/
theorem safe_filename_uppercase_docx_counterexample :
    safeFilename (some (toL "A.DOCX")) (toL "u") = toL "A.DOCX" ∧
      ¬ (toL ".docx" <:+ toL "A.DOCX") := by
  constructor
  · decide
  · decide
